import Mathlib

/-!
Verification of the pytest-benchmark plugin module
(src/pytest_benchmark/plugin.py) against its natural-language
specification.  Hooks that the plugin module defines are embedded as pure
Lean functions; fragments of the measurement engine that the plugin
references but whose code is not shipped under src/ (fixture, stats and
comparison utilities) are modelled from the specification and marked as
such in their doc comments.
-/

/-! ### JSON report generation (pytest_benchmark_generate_json, plugin.py lines 321-333) -/

/-- One entry of the session's benchmark list as consumed by
`pytest_benchmark_generate_json`: the `has_error` flag the hook tests, plus
an opaque payload standing for the rest of the fixture state that
`as_dict` serializes. -/
structure BenchRecord (δ : Type) where
  has_error : Bool
  payload : δ

/-- Shape of the report built by `pytest_benchmark_generate_json`:
machine info, commit info, serialized benchmark entries, timestamp and
version. -/
structure JsonReport (μ κ δ : Type) where
  machine_info : μ
  commit_info : κ
  benchmarks : List δ
  datetime : String
  version : String

/-- Embedding of `pytest_benchmark_generate_json`: the serializer
`as_dict`, the current timestamp `now` and the plugin `ver`sion enter as
parameters because the Python code obtains them from the environment.  The
benchmark entries are accumulated by the same conditional-append loop the
Python code runs. -/
def pytest_benchmark_generate_json {μ κ δ : Type} (machine_info : μ) (commit_info : κ)
    (benchmarks : List (BenchRecord δ)) (include_data : Bool)
    (as_dict : BenchRecord δ → Bool → δ) (now ver : String) : JsonReport μ κ δ where
  machine_info := machine_info
  commit_info := commit_info
  benchmarks := benchmarks.foldl
    (fun acc bench => if !bench.has_error then acc ++ [as_dict bench include_data] else acc) []
  datetime := now
  version := ver

/-- The conditional-append loop of `pytest_benchmark_generate_json` is a
filter followed by a map, for any starting accumulator. -/
theorem foldl_append_not_has_error {δ ρ : Type} (as_dict : BenchRecord δ → ρ)
    (benchmarks : List (BenchRecord δ)) (acc : List ρ) :
    benchmarks.foldl
      (fun acc bench => if !bench.has_error then acc ++ [as_dict bench] else acc) acc
      = acc ++ (benchmarks.filter (fun b => !b.has_error)).map as_dict := by
  induction benchmarks generalizing acc with
  | nil => simp
  | cons b rest ih =>
    cases hb : b.has_error with
    | true => simpa [hb] using ih acc
    | false => simpa [hb] using ih (acc ++ [as_dict b])

/-! ### Terminal summary error handling (pytest_terminal_summary, plugin.py lines 286-293) -/

/-- Exceptions in flight around `pytest_terminal_summary`: the
`PerformanceRegression` signal `display` can raise, any other exception
(carrying its formatted traceback), and the `NameError` the except-clause
matcher itself raises, chaining the exception it was handling. -/
inductive PyExc where
  | performanceRegression (message : String)
  | otherException (trace : String)
  | nameError (message : String) (context : PyExc)
deriving DecidableEq

/-- The message of the `NameError` raised when the except-clause matcher
of `pytest_terminal_summary` evaluates the name `PerformanceRegression`,
which the plugin module neither defines nor imports. -/
def nameErrorMessage : String := "name PerformanceRegression is not defined"

/-- Embedding of `pytest_terminal_summary`: the outcome of
`benchmarksession.display` comes in as an `Except` value, and the logger
state as a list of emitted messages.  The module imports only
`BenchmarkSession` from `.session` and never defines
`PerformanceRegression`, and Python evaluates an except clause's matcher
only once the try block has raised — so whenever `display` raises, looking
up the matcher name raises `NameError`, chaining the original exception;
the original is never re-raised as itself and the `except Exception`
logging branch is never reached.  A normal `display` logs nothing. -/
def pytest_terminal_summary (display : Except PyExc Unit) (log : List String) :
    Except PyExc Unit × List String :=
  match display with
  | Except.ok _ => (Except.ok (), log)
  | Except.error e => (Except.error (PyExc.nameError nameErrorMessage e), log)

/-! ### Machine info comparison (pytest_benchmark_compare_machine_info, plugin.py lines 220-229) -/

/-- Lookup in a Python dict represented as an association list in
key-insertion order: the value bound to the first matching key, if any. -/
def pyLookup {υ : Type} (k : String) : List (String × υ) → Option υ
  | [] => none
  | (k0, v0) :: rest => if k = k0 then some v0 else pyLookup k rest

/-- Python dictionary equality for string-valued dicts represented as
association lists: the two sides agree on every key of either side
(insertion order is irrelevant, exactly as for Python `dict` equality). -/
def pyDictEq (a b : List (String × String)) : Bool :=
  (a.all fun kv => decide (pyLookup kv.1 b = some kv.2)) &&
    (b.all fun kv => decide (pyLookup kv.1 a = some kv.2))

/-- The warning `pytest_benchmark_compare_machine_info` emits through the
session logger, carrying both machine-info dicts it formats into its
message. -/
structure MachineInfoWarning where
  code : String
  current : List (String × String)
  saved : List (String × String)
deriving DecidableEq

/-- Embedding of `pytest_benchmark_compare_machine_info`: the hook only
compares the saved benchmark's `machine_info` dict with the current one
and emits a single warning when they differ; it has no other effect and
always returns normally, so it is a total function into the list of
emitted warnings. -/
def pytest_benchmark_compare_machine_info (machine_info : List (String × String))
    (compared_machine_info : List (String × String)) : List MachineInfoWarning :=
  if pyDictEq compared_machine_info machine_info then []
  else [⟨"BENCHMARK-C6", machine_info, compared_machine_info⟩]

/-! ### Marker validation (pytest_runtest_setup, plugin.py lines 365-374) -/

/-- The closed set of keyword arguments `pytest_runtest_setup` accepts on
a `benchmark` marker, in the order the Python tuple lists them. -/
def allowed_marker_kwargs : List String :=
  ["max_time", "min_rounds", "min_time", "timer", "group", "disable_gc",
   "warmup", "warmup_iterations", "calibration_precision"]

/-- A `benchmark` marker as `pytest_runtest_setup` inspects it: its
positional arguments (of an arbitrary value type) and the names of its
keyword arguments in insertion order. -/
structure BenchmarkMarker (π : Type) where
  args : List π
  kwargs : List String

/-- The keyword-validation loop of `pytest_runtest_setup`: walk the marker
keyword names in order and raise `ValueError` at the first one outside the
closed set. -/
def check_marker_kwargs : List String → Except String Unit
  | [] => Except.ok ()
  | name :: rest =>
    if name ∈ allowed_marker_kwargs then check_marker_kwargs rest
    else Except.error ("benchmark mark cannot have keyword argument " ++ name)

/-- Embedding of `pytest_runtest_setup`: with no `benchmark` marker the
hook does nothing; with one it raises `ValueError` on any positional
argument, then validates every keyword name against the closed set. -/
def pytest_runtest_setup {π : Type} (marker : Option (BenchmarkMarker π)) :
    Except String Unit :=
  match marker with
  | none => Except.ok ()
  | some m =>
    match m.args with
    | _ :: _ => Except.error "benchmark mark cannot have positional arguments."
    | [] => check_marker_kwargs m.kwargs

/-- The validation loop succeeds exactly when every keyword name lies in
the closed set. -/
theorem check_marker_kwargs_ok_iff (ks : List String) :
    check_marker_kwargs ks = Except.ok () ↔ ∀ k ∈ ks, k ∈ allowed_marker_kwargs := by
  induction ks with
  | nil => simp [check_marker_kwargs]
  | cons k rest ih =>
    by_cases hk : k ∈ allowed_marker_kwargs <;> simp [check_marker_kwargs, hk, ih]

/-! ### Skip logic (pytest_runtest_call, plugin.py lines 237-250) -/

/-- The two benchmark-session flags `pytest_runtest_call` consults:
`--benchmark-skip` and `--benchmark-only`. -/
structure BenchmarkSessionFlags where
  skip : Bool
  only : Bool

/-- What `pytest_runtest_call` does with a test item: either skip it with
the given reason (`pytest.skip`) or let it run (`yield`). -/
inductive RuntestAction where
  | skipTest (reason : String)
  | runTest
deriving DecidableEq

/-- Whether a `RuntestAction` skips the test. -/
def RuntestAction.isSkip : RuntestAction → Bool
  | RuntestAction.skipTest _ => true
  | RuntestAction.runTest => false

/-- Embedding of `pytest_runtest_call`: `has_benchmark_fixture` states
that the item's funcargs hold a `BenchmarkFixture` under the key
`benchmark` (the `isinstance` test in the source). -/
def pytest_runtest_call (bs : BenchmarkSessionFlags) (has_benchmark_fixture : Bool) :
    RuntestAction :=
  if has_benchmark_fixture then
    if bs.skip then RuntestAction.skipTest "Skipping benchmark (--benchmark-skip active)."
    else RuntestAction.runTest
  else
    if bs.only then RuntestAction.skipTest "Skipping non-benchmark (--benchmark-only active)."
    else RuntestAction.runTest

/-! ### Fixture option merging (benchmark fixture, plugin.py lines 336-357) -/

/-- Assignment `d[k] = v` on a Python dict represented as an association
list in key-insertion order: an existing key keeps its position and gets
the new value, a new key is appended at the end. -/
def pyDictUpdate {υ : Type} (d : List (String × υ)) (k : String) (v : υ) :
    List (String × υ) :=
  if (pyLookup k d).isSome then
    d.map (fun kv => (kv.1, if kv.1 = k then v else kv.2))
  else d ++ [(k, v)]

/-- Python `dict(a, **b)`: copy `a`, then assign every binding of `b` in
order. -/
def pyDictMerge {υ : Type} (a b : List (String × υ)) : List (String × υ) :=
  b.foldl (fun d kv => pyDictUpdate d kv.1 kv.2) a

/-- Timer adjustment the `benchmark` fixture performs before merging: when
the marker supplies a `timer`, its value is replaced by its `NameWrapper`
wrapping (the abstract `wrap`). -/
def markerTimerAdjust {υ : Type} (wrap : υ → υ) (options : List (String × υ)) :
    List (String × υ) :=
  match pyLookup "timer" options with
  | some v => pyDictUpdate options "timer" (wrap v)
  | none => options

/-- Options the `benchmark` fixture hands to `BenchmarkFixture`:
`dict(bs.options, **options)` after the timer adjustment. -/
def benchmarkFixtureOptions {υ : Type} (wrap : υ → υ)
    (session_options marker_kwargs : List (String × υ)) : List (String × υ) :=
  pyDictMerge session_options (markerTimerAdjust wrap marker_kwargs)

/-- Lookup distributes over list append, preferring the left part. -/
theorem pyLookup_append {υ : Type} (k : String) (d e : List (String × υ)) :
    pyLookup k (d ++ e) = (pyLookup k d).or (pyLookup k e) := by
  induction d with
  | nil => simp [pyLookup]
  | cons kv rest ih =>
    obtain ⟨a, b⟩ := kv
    by_cases hka : k = a <;> simp [pyLookup, hka, ih]

/-- After `d[k] = v`, looking up `k` yields `v`. -/
theorem pyLookup_pyDictUpdate_self {υ : Type} (d : List (String × υ)) (k : String) (v : υ) :
    pyLookup k (pyDictUpdate d k v) = some v := by
  unfold pyDictUpdate
  by_cases hd : (pyLookup k d).isSome
  · rw [if_pos hd]
    induction d with
    | nil => simp [pyLookup] at hd
    | cons kv rest ih =>
      obtain ⟨a, b⟩ := kv
      by_cases hak : a = k
      · subst hak
        simp [pyLookup]
      · have hka : ¬k = a := fun h => hak h.symm
        have hd' : (pyLookup k rest).isSome := by
          simpa [pyLookup, hka] using hd
        simpa [pyLookup, hak, hka] using ih hd'
  · rw [if_neg hd]
    have hnone : pyLookup k d = none := Option.not_isSome_iff_eq_none.mp hd
    simp [pyLookup_append, hnone, pyLookup]

/-- After `d[k] = v`, every other key is unaffected. -/
theorem pyLookup_pyDictUpdate_ne {υ : Type} (d : List (String × υ)) (k : String) (v : υ)
    (k' : String) (hne : k' ≠ k) :
    pyLookup k' (pyDictUpdate d k v) = pyLookup k' d := by
  unfold pyDictUpdate
  by_cases hd : (pyLookup k d).isSome
  · rw [if_pos hd]
    clear hd
    induction d with
    | nil => simp
    | cons kv rest ih =>
      obtain ⟨a, b⟩ := kv
      by_cases hak : a = k
      · subst hak
        simp [pyLookup, hne, ih]
      · by_cases hk'a : k' = a <;> simp [pyLookup, hak, hk'a, ih]
  · rw [if_neg hd]
    simp [pyLookup_append, pyLookup, hne]

/-- Looking up in `dict(a, **b)` first finds the last binding in `b`, then
falls back to `a`. -/
theorem pyLookup_pyDictMerge {υ : Type} (b a : List (String × υ)) (k : String) :
    pyLookup k (pyDictMerge a b) = (pyLookup k b.reverse).or (pyLookup k a) := by
  induction b generalizing a with
  | nil => simp [pyDictMerge, pyLookup]
  | cons kv rest ih =>
    obtain ⟨k0, v0⟩ := kv
    have hstep : pyDictMerge a ((k0, v0) :: rest) = pyDictMerge (pyDictUpdate a k0 v0) rest := rfl
    rw [hstep, ih, List.reverse_cons, pyLookup_append, Option.or_assoc]
    congr 1
    by_cases hk : k = k0
    · subst hk
      simp [pyLookup, pyLookup_pyDictUpdate_self]
    · simp [pyLookup, hk, pyLookup_pyDictUpdate_ne a k0 v0 k hk]

/-- Lookup of an absent key fails. -/
theorem pyLookup_eq_none {υ : Type} (l : List (String × υ)) (k : String)
    (h : k ∉ l.map Prod.fst) : pyLookup k l = none := by
  induction l with
  | nil => rfl
  | cons kv rest ih =>
    obtain ⟨a, b⟩ := kv
    simp only [List.map_cons, List.mem_cons] at h
    push_neg at h
    simp [pyLookup, h.1, ih h.2]

/-- With no duplicate keys, lookup is insensitive to list reversal. -/
theorem pyLookup_reverse_of_nodup {υ : Type} (l : List (String × υ))
    (hnd : (l.map Prod.fst).Nodup) (k : String) :
    pyLookup k l.reverse = pyLookup k l := by
  induction l with
  | nil => rfl
  | cons kv rest ih =>
    obtain ⟨a, b⟩ := kv
    simp only [List.map_cons, List.nodup_cons] at hnd
    obtain ⟨ha, hrest⟩ := hnd
    rw [List.reverse_cons, pyLookup_append]
    by_cases hk : k = a
    · subst hk
      have hnone : pyLookup k rest.reverse = none := by
        apply pyLookup_eq_none
        simpa using ha
      simp [hnone, pyLookup]
    · simp [pyLookup, hk, ih hrest]

/-- Keys and their order are unchanged by the timer adjustment. -/
theorem keys_markerTimerAdjust {υ : Type} (wrap : υ → υ) (options : List (String × υ)) :
    (markerTimerAdjust wrap options).map Prod.fst = options.map Prod.fst := by
  unfold markerTimerAdjust
  cases ht : pyLookup "timer" options with
  | none => rfl
  | some v0 =>
    show List.map Prod.fst (pyDictUpdate options "timer" (wrap v0)) = List.map Prod.fst options
    unfold pyDictUpdate
    rw [if_pos (by rw [ht]; rfl), List.map_map]
    rfl

/-- Lookup after the timer adjustment: the `timer` value is wrapped, every
other value is untouched. -/
theorem pyLookup_markerTimerAdjust {υ : Type} (wrap : υ → υ)
    (options : List (String × υ)) (k : String) :
    pyLookup k (markerTimerAdjust wrap options)
      = (pyLookup k options).map (fun v => if k = "timer" then wrap v else v) := by
  unfold markerTimerAdjust
  cases ht : pyLookup "timer" options with
  | none =>
    by_cases hk : k = "timer"
    · subst hk
      simp [ht]
    · simp [hk, Option.map_id']
  | some v0 =>
    by_cases hk : k = "timer"
    · subst hk
      rw [pyLookup_pyDictUpdate_self, ht]
      simp
    · rw [pyLookup_pyDictUpdate_ne _ _ _ _ hk]
      simp [hk, Option.map_id']

/-! ### Round Runner stopping rule (spec-modelled) -/

/-- Modelled from the spec: the Round Runner's stopping rule (spec section
4.3).  The runner itself lives in pytest_benchmark/fixture.py, which the
repository does not ship under src/.  While `rounds < min_rounds` or
`elapsed < max_time` another round is executed and its duration
accumulated; otherwise the run seals with the current counters.
`durations k` is the measured duration of round `k`, and `fuel` bounds the
number of steps so that the function is total even for duration streams
that never reach `max_time`. -/
def runRoundsAux (durations : ℕ → ℚ) (min_rounds : ℕ) (max_time : ℚ) :
    ℕ → ℕ → ℚ → Option (ℕ × ℚ)
  | 0, _, _ => none
  | fuel + 1, rounds, elapsed =>
    if rounds < min_rounds ∨ elapsed < max_time then
      runRoundsAux durations min_rounds max_time fuel (rounds + 1) (elapsed + durations rounds)
    else some (rounds, elapsed)

/-- Modelled from the spec: the Round Runner entry point — no executed
rounds and zero cumulative elapsed time. -/
def runRounds (durations : ℕ → ℚ) (min_rounds : ℕ) (max_time : ℚ) (fuel : ℕ) :
    Option (ℕ × ℚ) :=
  runRoundsAux durations min_rounds max_time fuel 0 0

/-- Cumulative elapsed time after the first `k` rounds. -/
def elapsedAfter (durations : ℕ → ℚ) : ℕ → ℚ
  | 0 => 0
  | k + 1 => elapsedAfter durations k + durations k

/-- A constant duration stream, used to instantiate the Round Runner on
concrete scenarios. -/
def constantDurations (q : ℚ) : ℕ → ℚ := fun _ => q

/-- Soundness of the Round Runner loop from an arbitrary start state: a
sealed run has reached both budgets, reports the exact cumulative elapsed
time, and sealed at the first state where both budgets held. -/
theorem runRoundsAux_sound (durations : ℕ → ℚ) (min_rounds : ℕ) (max_time : ℚ) :
    ∀ (fuel rounds r : ℕ) (e : ℚ),
      runRoundsAux durations min_rounds max_time fuel rounds
          (elapsedAfter durations rounds) = some (r, e) →
      rounds ≤ r ∧ min_rounds ≤ r ∧ max_time ≤ e ∧ e = elapsedAfter durations r ∧
        ∀ k, rounds ≤ k → k < r → k < min_rounds ∨ elapsedAfter durations k < max_time := by
  intro fuel
  induction fuel with
  | zero =>
    intro rounds r e h
    simp [runRoundsAux] at h
  | succ n ih =>
    intro rounds r e h
    rw [runRoundsAux] at h
    by_cases hc : rounds < min_rounds ∨ elapsedAfter durations rounds < max_time
    · rw [if_pos hc] at h
      have hstep : elapsedAfter durations rounds + durations rounds
          = elapsedAfter durations (rounds + 1) := rfl
      rw [hstep] at h
      obtain ⟨h1, h2, h3, h4, h5⟩ := ih (rounds + 1) r e h
      refine ⟨by omega, h2, h3, h4, ?_⟩
      intro k hk1 hk2
      rcases Nat.eq_or_lt_of_le hk1 with heq | hlt
      · subst heq
        exact hc
      · exact h5 k hlt hk2
    · rw [if_neg hc] at h
      obtain ⟨hr, he⟩ := Prod.mk.injEq .. ▸ Option.some.injEq .. ▸ h
      push_neg at hc
      subst hr
      refine ⟨le_refl _, hc.1, he ▸ hc.2, he.symm, ?_⟩
      intro k hk1 hk2
      omega

/-- C8: the options the `benchmark` fixture passes to `BenchmarkFixture`
are the merge of the session options with the marker keyword arguments:
every key the marker supplies gets the marker's value (the `timer` value
additionally wrapped in `NameWrapper`), and every key the marker does not
supply keeps its session value. -/
theorem benchmark_fixture_marker_wins {υ : Type} (wrap : υ → υ)
    (session_options marker_kwargs : List (String × υ)) (k : String)
    (hnd : (marker_kwargs.map Prod.fst).Nodup) :
    pyLookup k (benchmarkFixtureOptions wrap session_options marker_kwargs)
      = match pyLookup k marker_kwargs with
        | some v => some (if k = "timer" then wrap v else v)
        | none => pyLookup k session_options := by
  unfold benchmarkFixtureOptions
  rw [pyLookup_pyDictMerge,
    pyLookup_reverse_of_nodup _ (by rw [keys_markerTimerAdjust]; exact hnd),
    pyLookup_markerTimerAdjust]
  cases pyLookup k marker_kwargs <;> simp

/-- Witness for C8 at a concrete merge: the marker overrides `timer` (to
its wrapped value 2 + 100) while `min_rounds` keeps its session value. -/
theorem benchmark_fixture_marker_wins_witness :
    (([("timer", (2 : ℕ)), ("max_time", 7)].map Prod.fst).Nodup) ∧
    pyLookup "timer" (benchmarkFixtureOptions (fun v => v + 100)
      [("min_rounds", (5 : ℕ)), ("timer", 1)] [("timer", 2), ("max_time", 7)]) = some 102 ∧
    pyLookup "min_rounds" (benchmarkFixtureOptions (fun v => v + 100)
      [("min_rounds", (5 : ℕ)), ("timer", 1)] [("timer", 2), ("max_time", 7)]) = some 5 :=
  ⟨by decide,
    (benchmark_fixture_marker_wins (fun v => v + 100)
      [("min_rounds", (5 : ℕ)), ("timer", 1)] [("timer", 2), ("max_time", 7)] "timer"
      (by decide)).trans (by decide),
    (benchmark_fixture_marker_wins (fun v => v + 100)
      [("min_rounds", (5 : ℕ)), ("timer", 1)] [("timer", 2), ("max_time", 7)] "min_rounds"
      (by decide)).trans (by decide)⟩

/-- C1: the Round Runner executes at least `min_rounds` rounds regardless
of the duration stream (so even when cumulative elapsed time exceeds
`max_time` early), seals only with cumulative elapsed time at least
`max_time` exactly equal to the sum of the executed round durations, and
seals at the first round count at which both budgets hold. -/
theorem round_runner_min_rounds_precedence (durations : ℕ → ℚ) (min_rounds : ℕ)
    (max_time : ℚ) (fuel r : ℕ) (e : ℚ)
    (h : runRounds durations min_rounds max_time fuel = some (r, e)) :
    min_rounds ≤ r ∧ max_time ≤ e ∧ e = elapsedAfter durations r ∧
      ∀ k, k < r → k < min_rounds ∨ elapsedAfter durations k < max_time := by
  have h0 : runRoundsAux durations min_rounds max_time fuel 0
      (elapsedAfter durations 0) = some (r, e) := h
  obtain ⟨-, h2, h3, h4, h5⟩ := runRoundsAux_sound durations min_rounds max_time fuel 0 r e h0
  exact ⟨h2, h3, h4, fun k hk => h5 k (Nat.zero_le k) hk⟩

/-- Witness for C1 on the spec's Scenario B: `min_rounds = 5` with
`max_time = 0` already exceeded at the start still runs exactly 5 rounds
of duration 1 before sealing. -/
theorem round_runner_min_rounds_precedence_witness :
    runRounds (constantDurations 1) 5 0 10 = some (5, 5) ∧ 5 ≤ 5 ∧ (0 : ℚ) ≤ 5 :=
  have h : runRounds (constantDurations 1) 5 0 10 = some (5, 5) := by
    norm_num [runRounds, runRoundsAux, constantDurations]
  ⟨h, (round_runner_min_rounds_precedence (constantDurations 1) 5 0 10 5 5 h).1,
    (round_runner_min_rounds_precedence (constantDurations 1) 5 0 10 5 5 h).2.1⟩

/-! ### Threshold expressions and regression verdicts (spec-modelled) -/

/-- Modelled from the spec: a parsed `--benchmark-compare-fail` threshold
(spec section 4.5) — either a relative percentage tolerance (`NN%`) or an
absolute tolerance in seconds.  The parser `parse_compare_fail` lives in
pytest_benchmark/utils.py, which the repository does not ship under
src/. -/
inductive Threshold where
  | percentage (p : ℚ)
  | absolute (a : ℚ)
deriving DecidableEq

/-- Numeric value of a decimal digit character. -/
def digitVal (c : Char) : ℕ := c.toNat - 48

/-- Value of a string of decimal digits. -/
def digitsVal (cs : List Char) : ℕ := cs.foldl (fun n c => n * 10 + digitVal c) 0

/-- Whether `cs` is a nonempty string of decimal digits. -/
def allDigits (cs : List Char) : Bool := !cs.isEmpty && cs.all Char.isDigit

/-- Split a character list at every occurrence of `sep`. -/
def splitOnSep (sep : Char) : List Char → List (List Char)
  | [] => [[]]
  | c :: rest =>
    if c = sep then [] :: splitOnSep sep rest
    else
      match splitOnSep sep rest with
      | [] => [[c]]
      | g :: gs => (c :: g) :: gs

/-- Modelled from the spec: parse a decimal numeral (digits with an
optional decimal point) into a rational. -/
def parseDecimal (cs : List Char) : Option ℚ :=
  match splitOnSep '.' cs with
  | [ip] => if allDigits ip then some ((digitsVal ip : ℕ) : ℚ) else none
  | [ip, fp] =>
    if allDigits ip && allDigits fp then
      some ((digitsVal ip : ℕ) + (digitsVal fp : ℕ) / (10 : ℚ) ^ fp.length)
    else none
  | _ => none

/-- Modelled from the spec: read a threshold — a trailing percent sign
marks the relative form, anything else the absolute form. -/
def parseThreshold (cs : List Char) : Option Threshold :=
  match cs.getLast? with
  | some '%' => (parseDecimal cs.dropLast).map Threshold.percentage
  | _ => (parseDecimal cs).map Threshold.absolute

/-- Modelled from the spec: `parse_compare_fail` reads an expression of
the form `metric:threshold`. -/
def parse_compare_fail (expr : String) : Option (String × Threshold) :=
  match splitOnSep ':' expr.toList with
  | [metric, thr] => (parseThreshold thr).map (fun t => (String.mk metric, t))
  | _ => none

/-- Modelled from the spec: the regression verdict for one metric value
pair — the relative form fails when the current value exceeds
baseline * (1 + percentage / 100), the absolute form when it exceeds
baseline + threshold. -/
def regressionFails (t : Threshold) (baseline current : ℚ) : Bool :=
  match t with
  | Threshold.percentage p => decide (baseline * (1 + p / 100) < current)
  | Threshold.absolute a => decide (baseline + a < current)

/-- C3: the relative threshold form fails exactly when the current metric
exceeds baseline × (1 + percentage/100) and the absolute form exactly when
it exceeds baseline + threshold; the expression `mean:10%` parses to the
relative form, under which a current mean of 1.2 against baseline 1.0
fails while a current mean of 1.05 passes. -/
theorem compare_fail_threshold_semantics (baseline current p a : ℚ) :
    (regressionFails (Threshold.percentage p) baseline current = true
        ↔ baseline * (1 + p / 100) < current) ∧
    (regressionFails (Threshold.absolute a) baseline current = true
        ↔ baseline + a < current) ∧
    parse_compare_fail "mean:10%" = some ("mean", Threshold.percentage 10) ∧
    regressionFails (Threshold.percentage 10) 1 (12 / 10) = true ∧
    regressionFails (Threshold.percentage 10) 1 (105 / 100) = false := by
  refine ⟨by simp [regressionFails], by simp [regressionFails], by decide,
    ?_, ?_⟩
  · simp only [regressionFails, decide_eq_true_eq]
    norm_num
  · simp only [regressionFails, decide_eq_false_iff_not]
    norm_num

/-! ### Stable insertion sort, shared by the Stats Engine and grouping -/

/-- Insert `a` in front of the first element of `l` that is not below it;
among equal elements the inserted one goes first, which makes the sort
stable like Python's. -/
def insertSorted {α : Type} (le : α → α → Bool) (a : α) : List α → List α
  | [] => [a]
  | b :: l => if le a b then a :: b :: l else b :: insertSorted le a l

/-- Stable insertion sort by the Boolean relation `le`. -/
def sortBy {α : Type} (le : α → α → Bool) : List α → List α
  | [] => []
  | a :: l => insertSorted le a (sortBy le l)

/-- Insertion permutes the extended list. -/
theorem perm_insertSorted {α : Type} (le : α → α → Bool) (a : α) (l : List α) :
    (insertSorted le a l).Perm (a :: l) := by
  induction l with
  | nil => exact List.Perm.refl _
  | cons b l ih =>
    by_cases h : le a b = true
    · rw [insertSorted, if_pos h]
    · rw [insertSorted, if_neg h]
      exact (ih.cons b).trans (List.Perm.swap a b l)

/-- Sorting permutes the list. -/
theorem perm_sortBy {α : Type} (le : α → α → Bool) (l : List α) :
    (sortBy le l).Perm l := by
  induction l with
  | nil => exact List.Perm.refl _
  | cons a l ih => exact (perm_insertSorted le a (sortBy le l)).trans (ih.cons a)

/-- Membership in an insertion. -/
theorem mem_insertSorted {α : Type} (le : α → α → Bool) (a x : α) (l : List α) :
    x ∈ insertSorted le a l ↔ x = a ∨ x ∈ l := by
  rw [(perm_insertSorted le a l).mem_iff, List.mem_cons]

/-- Inserting into a sorted list keeps it sorted, for a total and
transitive relation. -/
theorem sorted_insertSorted {α : Type} (le : α → α → Bool)
    (htot : ∀ x y, le x y = true ∨ le y x = true)
    (htrans : ∀ x y z, le x y = true → le y z = true → le x z = true)
    (a : α) (l : List α) (hl : l.Pairwise (fun x y => le x y = true)) :
    (insertSorted le a l).Pairwise (fun x y => le x y = true) := by
  induction l with
  | nil => simp [insertSorted]
  | cons b l ih =>
    obtain ⟨hb, hl'⟩ := List.pairwise_cons.mp hl
    by_cases h : le a b = true
    · rw [insertSorted, if_pos h]
      refine List.pairwise_cons.mpr ⟨?_, hl⟩
      intro y hy
      rcases List.mem_cons.mp hy with rfl | hyl
      · exact h
      · exact htrans a b y h (hb y hyl)
    · rw [insertSorted, if_neg h]
      refine List.pairwise_cons.mpr ⟨?_, ih hl'⟩
      intro y hy
      rcases (mem_insertSorted le a y l).mp hy with rfl | hyl
      · rcases htot y b with hab | hba
        · exact absurd hab h
        · exact hba
      · exact hb y hyl

/-- Sorting sorts, for a total and transitive relation. -/
theorem sorted_sortBy {α : Type} (le : α → α → Bool)
    (htot : ∀ x y, le x y = true ∨ le y x = true)
    (htrans : ∀ x y z, le x y = true → le y z = true → le x z = true)
    (l : List α) : (sortBy le l).Pairwise (fun x y => le x y = true) := by
  induction l with
  | nil => simp [sortBy]
  | cons a l ih => exact sorted_insertSorted le htot htrans a _ ih

/-! ### Stats Engine (spec-modelled) -/

/-- Modelled from the spec: the Stats Engine's sorted copy of the round
data (spec section 4.4); pytest_benchmark/stats.py is not shipped under
src/. -/
def sortedData (data : List ℚ) : List ℚ := sortBy (fun x y => decide (x ≤ y)) data

/-- Modelled from the spec: minimum of the round data. -/
def statsMin (data : List ℚ) : ℚ :=
  match data with
  | [] => 0
  | x :: xs => xs.foldl min x

/-- Modelled from the spec: maximum of the round data. -/
def statsMax (data : List ℚ) : ℚ :=
  match data with
  | [] => 0
  | x :: xs => xs.foldl max x

/-- Modelled from the spec: arithmetic mean of the round data. -/
def statsMean (data : List ℚ) : ℚ := data.sum / data.length

/-- Modelled from the spec: median — the middle element of the sorted
data, or the average of the two central elements at even length. -/
def statsMedian (data : List ℚ) : ℚ :=
  if (sortedData data).length = 0 then 0
  else if (sortedData data).length % 2 = 1 then
    (sortedData data).getD ((sortedData data).length / 2) 0
  else
    ((sortedData data).getD ((sortedData data).length / 2 - 1) 0
      + (sortedData data).getD ((sortedData data).length / 2) 0) / 2

/-- Modelled from the spec: sample variance with the n − 1 denominator. -/
def statsVariance (data : List ℚ) : ℚ :=
  (data.map (fun x => (x - statsMean data) ^ 2)).sum / ((data.length : ℚ) - 1)

/-- Modelled from the spec: sample standard deviation, defined as 0 when
the round count is 1 (and, vacuously, when there is no data). -/
noncomputable def statsStddev (data : List ℚ) : ℝ :=
  if data.length ≤ 1 then 0 else Real.sqrt (statsVariance data)

/-- A fold with `min` stays below every participating element. -/
theorem foldl_min_le (xs : List ℚ) :
    ∀ (x y : ℚ), y ∈ x :: xs → xs.foldl min x ≤ y := by
  induction xs with
  | nil =>
    intro x y hy
    rcases List.mem_cons.mp hy with rfl | hmem
    · exact le_refl _
    · simp at hmem
  | cons z zs ih =>
    intro x y hy
    simp only [List.foldl_cons]
    have hbase : zs.foldl min (min x z) ≤ min x z :=
      ih (min x z) (min x z) (List.mem_cons_self _ _)
    rcases List.mem_cons.mp hy with rfl | hy'
    · exact hbase.trans (min_le_left _ _)
    · rcases List.mem_cons.mp hy' with rfl | hzz
      · exact hbase.trans (min_le_right _ _)
      · exact ih (min x z) y (List.mem_cons_of_mem _ hzz)

/-- A fold with `max` stays above every participating element. -/
theorem le_foldl_max (xs : List ℚ) :
    ∀ (x y : ℚ), y ∈ x :: xs → y ≤ xs.foldl max x := by
  induction xs with
  | nil =>
    intro x y hy
    rcases List.mem_cons.mp hy with rfl | hmem
    · exact le_refl _
    · simp at hmem
  | cons z zs ih =>
    intro x y hy
    simp only [List.foldl_cons]
    have hbase : max x z ≤ zs.foldl max (max x z) :=
      ih (max x z) (max x z) (List.mem_cons_self _ _)
    rcases List.mem_cons.mp hy with rfl | hy'
    · exact (le_max_left _ _).trans hbase
    · rcases List.mem_cons.mp hy' with rfl | hzz
      · exact (le_max_right _ _).trans hbase
      · exact ih (max x z) y (List.mem_cons_of_mem _ hzz)

/-- The recorded minimum bounds every data point from below. -/
theorem statsMin_le_of_mem (data : List ℚ) (x : ℚ) (hx : x ∈ data) :
    statsMin data ≤ x := by
  cases data with
  | nil => simp at hx
  | cons d ds => exact foldl_min_le ds d x hx

/-- The recorded maximum bounds every data point from above. -/
theorem le_statsMax_of_mem (data : List ℚ) (x : ℚ) (hx : x ∈ data) :
    x ≤ statsMax data := by
  cases data with
  | nil => simp at hx
  | cons d ds => exact le_foldl_max ds d x hx

/-- The sorted copy permutes the data. -/
theorem sortedData_perm (data : List ℚ) : (sortedData data).Perm data :=
  perm_sortBy _ _

/-- The sorted copy is sorted. -/
theorem sortedData_pairwise (data : List ℚ) :
    (sortedData data).Pairwise (· ≤ ·) := by
  have h := sorted_sortBy (fun x y : ℚ => decide (x ≤ y))
    (fun x y => by rcases le_total x y with h | h
                   · exact Or.inl (decide_eq_true h)
                   · exact Or.inr (decide_eq_true h))
    (fun x y z hxy hyz =>
      decide_eq_true (le_trans (of_decide_eq_true hxy) (of_decide_eq_true hyz)))
    data
  exact h.imp (fun hb => of_decide_eq_true hb)

/-- An in-range `getD` access hits a member of the list. -/
theorem getD_mem_of_lt {α : Type} (l : List α) (i : ℕ) (d : α) (h : i < l.length) :
    l.getD i d ∈ l := by
  rw [List.getD_eq_getElem l d h]
  exact List.getElem_mem h

/-- C2: for a statistics record over a non-empty round sequence, the
median and the mean lie between the minimum and the maximum, the sample
standard deviation is non-negative, and it is exactly 0 when the round
count is 1. -/
theorem stats_record_invariants (data : List ℚ) (h : data ≠ []) :
    statsMin data ≤ statsMedian data ∧ statsMedian data ≤ statsMax data ∧
    statsMin data ≤ statsMean data ∧ statsMean data ≤ statsMax data ∧
    0 ≤ statsStddev data ∧ (data.length = 1 → statsStddev data = 0) := by
  have hperm := sortedData_perm data
  have hlen : (sortedData data).length = data.length := hperm.length_eq
  have hpos : 0 < data.length := List.length_pos.mpr h
  have hn0 : ¬(sortedData data).length = 0 := by omega
  have hmem : ∀ x ∈ sortedData data, statsMin data ≤ x ∧ x ≤ statsMax data := by
    intro x hx
    have hxd : x ∈ data := hperm.mem_iff.mp hx
    exact ⟨statsMin_le_of_mem data x hxd, le_statsMax_of_mem data x hxd⟩
  have hmed : statsMin data ≤ statsMedian data ∧ statsMedian data ≤ statsMax data := by
    rw [statsMedian, if_neg hn0]
    by_cases hodd : (sortedData data).length % 2 = 1
    · rw [if_pos hodd]
      have hi : (sortedData data).length / 2 < (sortedData data).length := by omega
      exact hmem _ (getD_mem_of_lt _ _ _ hi)
    · rw [if_neg hodd]
      have hi1 : (sortedData data).length / 2 - 1 < (sortedData data).length := by omega
      have hi2 : (sortedData data).length / 2 < (sortedData data).length := by omega
      obtain ⟨ha1, ha2⟩ := hmem _ (getD_mem_of_lt _ ((sortedData data).length / 2 - 1) 0 hi1)
      obtain ⟨hb1, hb2⟩ := hmem _ (getD_mem_of_lt _ ((sortedData data).length / 2) 0 hi2)
      constructor
      · linarith
      · linarith
  have hq : 0 < (data.length : ℚ) := by exact_mod_cast hpos
  have hmean1 : statsMin data ≤ statsMean data := by
    rw [statsMean, le_div_iff₀ hq]
    have hs := List.card_nsmul_le_sum data (statsMin data)
      (fun x hx => statsMin_le_of_mem data x hx)
    rw [nsmul_eq_mul] at hs
    linarith
  have hmean2 : statsMean data ≤ statsMax data := by
    rw [statsMean, div_le_iff₀ hq]
    have hs := List.sum_le_card_nsmul data (statsMax data)
      (fun x hx => le_statsMax_of_mem data x hx)
    rw [nsmul_eq_mul] at hs
    linarith
  have hsd1 : 0 ≤ statsStddev data := by
    rw [statsStddev]
    by_cases hc : data.length ≤ 1
    · rw [if_pos hc]
    · rw [if_neg hc]
      exact Real.sqrt_nonneg _
  have hsd2 : data.length = 1 → statsStddev data = 0 := by
    intro h1
    rw [statsStddev, if_pos (by omega)]
  exact ⟨hmed.1, hmed.2, hmean1, hmean2, hsd1, hsd2⟩

/-- Witness for C2 on the concrete round data [1, 2, 3]. -/
theorem stats_record_invariants_witness :
    (([1, 2, 3] : List ℚ) ≠ []) ∧
    statsMin [1, 2, 3] ≤ statsMedian [1, 2, 3] :=
  ⟨by decide, (stats_record_invariants [1, 2, 3] (by decide)).1⟩

/-! ### Grouping (pytest_benchmark_group_stats, plugin.py lines 253-277) -/

/-- One benchmark row as `pytest_benchmark_group_stats` reads it: the
fields the grouping dispatch consults.  `group` and `param` may be absent
(Python `None`); `params` is the parametrization dict. -/
structure Bench where
  group : Option String
  name : String
  fullname : String
  param : Option String
  params : List (String × String)
deriving DecidableEq

/-- The exceptions `pytest_benchmark_group_stats` can raise: the explicit
`NotImplementedError` for an unsupported grouping label, and the `KeyError`
a missing `params` entry raises on `bench["params"][param_name]`. -/
inductive GroupError where
  | notImplemented (group_by : String)
  | keyError (param_name : String)
deriving DecidableEq

/-- Python `s.split("[")[0]`: the characters before the first bracket. -/
def funcOf (s : String) : String := String.mk (s.toList.takeWhile (fun c => c != '['))

/-- Whether `full` occurs in the character list (Python substring test). -/
def containsFull : List Char → Bool
  | [] => false
  | c :: rest => (List.take 4 (c :: rest) == ['f', 'u', 'l', 'l']) || containsFull rest

/-- Python `"full" in group_by`. -/
def hasFull (s : String) : Bool := containsFull s.toList

/-- The per-row sort key inside a group: `fullname` when `full` occurs in
the grouping label, `name` otherwise. -/
def sortField (group_by : String) (b : Bench) : String :=
  if hasFull group_by then b.fullname else b.name

/-- Python `pair[0] or ""`: a falsy group key compares as the empty
string. -/
def keyStr (k : Option String) : String := k.getD ""

/-- Lexicographic comparison of character lists by code point, the order
Python uses to compare strings. -/
def charsLe : List Char → List Char → Bool
  | [], _ => true
  | _ :: _, [] => false
  | a :: as, b :: bs =>
    if a.toNat < b.toNat then true
    else if b.toNat < a.toNat then false
    else charsLe as bs

/-- String comparison through `charsLe`. -/
def strLe (a b : String) : Bool := charsLe a.toList b.toList

/-- Key of one benchmark row under a grouping label, following the
if/elif chain of `pytest_benchmark_group_stats` in source order. -/
def benchKey (group_by : String) (bench : Bench) : Except GroupError (Option String) :=
  if group_by = "group" then Except.ok bench.group
  else if group_by = "name" then Except.ok (some bench.name)
  else if group_by = "func" then Except.ok (some (funcOf bench.name))
  else if group_by = "fullfunc" then Except.ok (some (funcOf bench.fullname))
  else if group_by = "fullname" then Except.ok (some bench.fullname)
  else if group_by = "param" then Except.ok bench.param
  else if group_by.toList.take 6 = "param:".toList then
    match pyLookup (group_by.drop 6) bench.params with
    | some v => Except.ok (some v)
    | none => Except.error (GroupError.keyError (group_by.drop 6))
  else Except.error (GroupError.notImplemented group_by)

/-- The grouping labels the dispatch accepts. -/
def supportedGroupBy (group_by : String) : Bool :=
  decide (group_by = "group") || decide (group_by = "name") || decide (group_by = "func")
    || decide (group_by = "fullfunc") || decide (group_by = "fullname")
    || decide (group_by = "param") || decide (group_by.toList.take 6 = "param:".toList)

/-- Keys of a Python dict built by insertion: first occurrences, in
order. -/
def firstKeys {α : Type} [DecidableEq α] : List α → List α
  | [] => []
  | k :: ks => k :: firstKeys (ks.filter (fun x => decide (x ≠ k)))
termination_by l => l.length
decreasing_by
  simp only [List.length_cons]
  exact Nat.lt_succ_of_le (List.length_filter_le _ _)

/-- Grouping and sorting of the keyed benchmark rows: the groups in
key-first-insertion order, each sorted by the row sort key, the whole list
then sorted by group key (with falsy keys as the empty string). -/
def groupAndSort (group_by : String) (keyed : List (Option String × Bench)) :
    List (Option String × List Bench) :=
  sortBy (fun p q => strLe (keyStr p.1) (keyStr q.1))
    ((firstKeys (keyed.map Prod.fst)).map (fun k =>
      (k, sortBy (fun x y => strLe (sortField group_by x) (sortField group_by y))
        ((keyed.filter (fun p => decide (p.1 = k))).map Prod.snd))))

/-- Embedding of `pytest_benchmark_group_stats`: key every benchmark in
order (the per-row dispatch can raise), then group and sort. -/
def pytest_benchmark_group_stats (benchmarks : List Bench) (group_by : String) :
    Except GroupError (List (Option String × List Bench)) :=
  (benchmarks.mapM (fun bench => (benchKey group_by bench).map (fun k => (k, bench)))).map
    (groupAndSort group_by)

/-- The grouping result under the assumption that no exception occurred. -/
def groupStatsOk (benchmarks : List Bench) (group_by : String) :
    List (Option String × List Bench) :=
  ((pytest_benchmark_group_stats benchmarks group_by).toOption).getD []

/-- Splitting a code-point comparison of head characters. -/
theorem charsLe_cons_iff (x y : Char) (xs ys : List Char) :
    charsLe (x :: xs) (y :: ys) = true
      ↔ x.toNat < y.toNat ∨ (x.toNat = y.toNat ∧ charsLe xs ys = true) := by
  by_cases h1 : x.toNat < y.toNat
  · simp [charsLe, h1]
  · by_cases h2 : y.toNat < x.toNat
    · simp only [charsLe, if_neg h1, if_pos h2]
      constructor
      · intro hc
        exact absurd hc (by simp)
      · intro hc
        omega
    · have heq : x.toNat = y.toNat := by omega
      simp [charsLe, h1, h2, heq]

/-- Totality of the code-point order. -/
theorem charsLe_total : ∀ a b, charsLe a b = true ∨ charsLe b a = true := by
  intro a
  induction a with
  | nil => intro b; exact Or.inl rfl
  | cons x xs ih =>
    intro b
    cases b with
    | nil => exact Or.inr rfl
    | cons y ys =>
      rcases Nat.lt_trichotomy x.toNat y.toNat with h | h | h
      · exact Or.inl ((charsLe_cons_iff x y xs ys).mpr (Or.inl h))
      · rcases ih ys with hc | hc
        · exact Or.inl ((charsLe_cons_iff x y xs ys).mpr (Or.inr ⟨h, hc⟩))
        · exact Or.inr ((charsLe_cons_iff y x ys xs).mpr (Or.inr ⟨h.symm, hc⟩))
      · exact Or.inr ((charsLe_cons_iff y x ys xs).mpr (Or.inl h))

/-- Transitivity of the code-point order. -/
theorem charsLe_trans : ∀ a b c, charsLe a b = true → charsLe b c = true →
    charsLe a c = true := by
  intro a
  induction a with
  | nil => intro b c _ _; rfl
  | cons x xs ih =>
    intro b c hab hbc
    cases b with
    | nil => simp [charsLe] at hab
    | cons y ys =>
      cases c with
      | nil => simp [charsLe] at hbc
      | cons z zs =>
        rcases (charsLe_cons_iff x y xs ys).mp hab with h1 | ⟨h1, h1'⟩ <;>
          rcases (charsLe_cons_iff y z ys zs).mp hbc with h2 | ⟨h2, h2'⟩
        · exact (charsLe_cons_iff x z xs zs).mpr (Or.inl (by omega))
        · exact (charsLe_cons_iff x z xs zs).mpr (Or.inl (by omega))
        · exact (charsLe_cons_iff x z xs zs).mpr (Or.inl (by omega))
        · exact (charsLe_cons_iff x z xs zs).mpr (Or.inr ⟨by omega, ih ys zs h1' h2'⟩)

/-- Totality of the string order. -/
theorem strLe_total (a b : String) : strLe a b = true ∨ strLe b a = true :=
  charsLe_total a.toList b.toList

/-- Transitivity of the string order. -/
theorem strLe_trans (a b c : String) (hab : strLe a b = true) (hbc : strLe b c = true) :
    strLe a c = true :=
  charsLe_trans a.toList b.toList c.toList hab hbc

/-- `firstKeys` keeps exactly the members. -/
theorem mem_firstKeys {α : Type} [DecidableEq α] :
    ∀ (l : List α) (a : α), a ∈ firstKeys l ↔ a ∈ l := by
  intro l
  induction l using firstKeys.induct with
  | case1 =>
    intro a
    rw [firstKeys]
  | case2 k ks ih =>
    intro a
    rw [firstKeys]
    by_cases hak : a = k
    · subst hak
      simp
    · simp only [List.mem_cons, ih, List.mem_filter]
      constructor
      · rintro (rfl | ⟨hmem, -⟩)
        · exact Or.inl rfl
        · exact Or.inr hmem
      · rintro (rfl | hmem)
        · exact Or.inl rfl
        · exact Or.inr ⟨hmem, by simpa using hak⟩

/-- `firstKeys` has no duplicates. -/
theorem nodup_firstKeys {α : Type} [DecidableEq α] :
    ∀ l : List α, (firstKeys l).Nodup := by
  intro l
  induction l using firstKeys.induct with
  | case1 =>
    rw [firstKeys]
    exact List.nodup_nil
  | case2 k ks ih =>
    rw [firstKeys]
    refine List.nodup_cons.mpr ⟨?_, ih⟩
    intro hk
    rw [mem_firstKeys, List.mem_filter] at hk
    simpa using hk.2

/-- For a supported label whose `param:NAME` lookups (if any) succeed, the
dispatch yields a key. -/
theorem benchKey_ok_of_supported (group_by : String) (b : Bench)
    (hsup : supportedGroupBy group_by = true)
    (hp : group_by.toList.take 6 = "param:".toList →
      (pyLookup (group_by.drop 6) b.params).isSome = true) :
    ∃ k, benchKey group_by b = Except.ok k := by
  unfold supportedGroupBy at hsup
  simp only [Bool.or_eq_true, decide_eq_true_eq] at hsup
  rcases hsup with ((((((h | h) | h) | h) | h) | h) | h)
  · subst h; exact ⟨_, rfl⟩
  · subst h; exact ⟨_, rfl⟩
  · subst h; exact ⟨_, rfl⟩
  · subst h; exact ⟨_, rfl⟩
  · subst h; exact ⟨_, rfl⟩
  · subst h; exact ⟨_, rfl⟩
  · have h1 : ¬group_by = "group" := by rintro rfl; exact absurd h (by decide)
    have h2 : ¬group_by = "name" := by rintro rfl; exact absurd h (by decide)
    have h3 : ¬group_by = "func" := by rintro rfl; exact absurd h (by decide)
    have h4 : ¬group_by = "fullfunc" := by rintro rfl; exact absurd h (by decide)
    have h5 : ¬group_by = "fullname" := by rintro rfl; exact absurd h (by decide)
    have h6 : ¬group_by = "param" := by rintro rfl; exact absurd h (by decide)
    obtain ⟨v, hv⟩ := Option.isSome_iff_exists.mp (hp h)
    refine ⟨some v, ?_⟩
    unfold benchKey
    rw [if_neg h1, if_neg h2, if_neg h3, if_neg h4, if_neg h5, if_neg h6, if_pos h, hv]

/-- For an unsupported label the dispatch raises `NotImplementedError`. -/
theorem benchKey_notImplemented (group_by : String) (b : Bench)
    (hsup : supportedGroupBy group_by = false) :
    benchKey group_by b = Except.error (GroupError.notImplemented group_by) := by
  unfold supportedGroupBy at hsup
  simp only [Bool.or_eq_false_iff, decide_eq_false_iff_not] at hsup
  obtain ⟨⟨⟨⟨⟨⟨h1, h2⟩, h3⟩, h4⟩, h5⟩, h6⟩, h7⟩ := hsup
  unfold benchKey
  rw [if_neg h1, if_neg h2, if_neg h3, if_neg h4, if_neg h5, if_neg h6, if_neg h7]

/-- Keying a benchmark list that raises nowhere yields the keyed rows in
order, carrying the original benchmarks as second components. -/
theorem mapM_benchKey_ok (group_by : String) :
    ∀ benchmarks : List Bench,
      (∀ b ∈ benchmarks, ∃ k, benchKey group_by b = Except.ok k) →
      ∃ keyed : List (Option String × Bench),
        benchmarks.mapM
            (fun bench => (benchKey group_by bench).map (fun k => (k, bench)))
          = Except.ok keyed ∧
        keyed.map Prod.snd = benchmarks := by
  intro benchmarks
  induction benchmarks with
  | nil =>
    intro _
    exact ⟨[], rfl, rfl⟩
  | cons b bs ih =>
    intro hall
    obtain ⟨k, hk⟩ := hall b (List.mem_cons_self _ _)
    obtain ⟨keyed, hkeyed, hsnd⟩ := ih (fun x hx => hall x (List.mem_cons_of_mem _ hx))
    refine ⟨(k, b) :: keyed, ?_, by simp [hsnd]⟩
    rw [List.mapM_cons, hk, hkeyed]
    rfl

/-- Pointwise permutations of the blocks yield a permutation of the
flattening. -/
theorem flatten_map_perm {κ α : Type} (ks : List κ) (f g : κ → List α)
    (h : ∀ k ∈ ks, (f k).Perm (g k)) :
    ((ks.map f).flatten).Perm ((ks.map g).flatten) := by
  induction ks with
  | nil => exact List.Perm.refl _
  | cons k ks ih =>
    simp only [List.map_cons, List.flatten_cons]
    exact (h k (List.mem_cons_self _ _)).append
      (ih (fun k' hk' => h k' (List.mem_cons_of_mem _ hk')))

/-- Filtering a list through a duplicate-free covering key list is a
partition: the flattening of the filtered blocks permutes the list. -/
theorem flatten_filter_perm {α κ : Type} [DecidableEq κ] (key : α → κ) :
    ∀ (ks : List κ) (l : List α), (∀ x ∈ l, key x ∈ ks) → ks.Nodup →
      (List.flatten (ks.map (fun k => l.filter (fun x => decide (key x = k))))).Perm l := by
  intro ks
  induction ks with
  | nil =>
    intro l hcov _
    have hnil : l = [] := List.eq_nil_iff_forall_not_mem.mpr
      (fun x hx => by simpa using hcov x hx)
    simp [hnil]
  | cons k ks ih =>
    intro l hcov hnd
    obtain ⟨hk, hnd'⟩ := List.nodup_cons.mp hnd
    simp only [List.map_cons, List.flatten_cons]
    have hstep : ∀ k' ∈ ks, l.filter (fun x => decide (key x = k'))
        = (l.filter (fun x => !decide (key x = k))).filter
            (fun x => decide (key x = k')) := by
      intro k' hk'
      rw [List.filter_filter]
      apply List.filter_congr
      intro x _
      by_cases hxk : key x = k'
      · have hkk' : k ≠ k' := fun he => hk (he ▸ hk')
        have hxnotk : ¬key x = k := fun hh => hkk' (hh.symm.trans hxk)
        have hk'k : k' ≠ k := Ne.symm hkk'
        simp [hxk, hxnotk, hk'k]
      · simp [hxk]
    have hmapeq : ks.map (fun k' => l.filter (fun x => decide (key x = k')))
        = ks.map (fun k' => (l.filter (fun x => !decide (key x = k))).filter
            (fun x => decide (key x = k'))) :=
      List.map_congr_left hstep
    rw [hmapeq]
    have hcov' : ∀ x ∈ l.filter (fun x => !decide (key x = k)), key x ∈ ks := by
      intro x hx
      rw [List.mem_filter] at hx
      obtain ⟨hxl, hxk⟩ := hx
      rcases List.mem_cons.mp (hcov x hxl) with heq | hmem
      · rw [heq] at hxk
        simp at hxk
      · exact hmem
    have hperm2 := ih (l.filter (fun x => !decide (key x = k))) hcov' hnd'
    exact (List.Perm.append_left _ hperm2).trans (List.filter_append_perm _ l)

/-- The grouped-and-sorted rows are a partition of the keyed rows, sorted
by group key, each group sorted by the row sort key. -/
theorem groupAndSort_spec (group_by : String) (keyed : List (Option String × Bench)) :
    ((groupAndSort group_by keyed).map Prod.snd).flatten.Perm (keyed.map Prod.snd) ∧
    (groupAndSort group_by keyed).Pairwise
      (fun p q => strLe (keyStr p.1) (keyStr q.1) = true) ∧
    ∀ pr ∈ groupAndSort group_by keyed,
      pr.2.Pairwise (fun x y => strLe (sortField group_by x) (sortField group_by y) = true) := by
  refine ⟨?_, ?_, ?_⟩
  · have hperm_res : (groupAndSort group_by keyed).Perm
        ((firstKeys (keyed.map Prod.fst)).map (fun k =>
          (k, sortBy (fun x y => strLe (sortField group_by x) (sortField group_by y))
            ((keyed.filter (fun p => decide (p.1 = k))).map Prod.snd)))) :=
      perm_sortBy _ _
    have h1 := (hperm_res.map Prod.snd).flatten
    have h2 : ((firstKeys (keyed.map Prod.fst)).map (fun k =>
          (k, sortBy (fun x y => strLe (sortField group_by x) (sortField group_by y))
            ((keyed.filter (fun p => decide (p.1 = k))).map Prod.snd)))).map Prod.snd
        = (firstKeys (keyed.map Prod.fst)).map (fun k =>
            sortBy (fun x y => strLe (sortField group_by x) (sortField group_by y))
              ((keyed.filter (fun p => decide (p.1 = k))).map Prod.snd)) := by
      rw [List.map_map]
      rfl
    rw [h2] at h1
    have h3 := flatten_map_perm (firstKeys (keyed.map Prod.fst))
      (fun k => sortBy (fun x y => strLe (sortField group_by x) (sortField group_by y))
        ((keyed.filter (fun p => decide (p.1 = k))).map Prod.snd))
      (fun k => (keyed.filter (fun p => decide (p.1 = k))).map Prod.snd)
      (fun k _ => perm_sortBy _ _)
    have h4 : (firstKeys (keyed.map Prod.fst)).map (fun k =>
          (keyed.filter (fun p => decide (p.1 = k))).map Prod.snd)
        = ((firstKeys (keyed.map Prod.fst)).map (fun k =>
            keyed.filter (fun p => decide (p.1 = k)))).map (List.map Prod.snd) := by
      rw [List.map_map]
      rfl
    have h5 : (((firstKeys (keyed.map Prod.fst)).map (fun k =>
          keyed.filter (fun p => decide (p.1 = k)))).map (List.map Prod.snd)).flatten
        = (((firstKeys (keyed.map Prod.fst)).map (fun k =>
            keyed.filter (fun p => decide (p.1 = k)))).flatten).map Prod.snd := by
      rw [List.map_flatten]
    have h6 := flatten_filter_perm (Prod.fst : Option String × Bench → Option String)
      (firstKeys (keyed.map Prod.fst)) keyed
      (fun x hx => (mem_firstKeys _ _).mpr (List.mem_map_of_mem Prod.fst hx))
      (nodup_firstKeys _)
    exact h1.trans ((h4 ▸ h3).trans (h5 ▸ (h6.map Prod.snd)))
  · exact sorted_sortBy
      (fun p q : Option String × List Bench => strLe (keyStr p.1) (keyStr q.1))
      (fun p q => strLe_total (keyStr p.1) (keyStr q.1))
      (fun p q r => strLe_trans (keyStr p.1) (keyStr q.1) (keyStr r.1)) _
  · intro pr hpr
    have hmem : pr ∈ (firstKeys (keyed.map Prod.fst)).map (fun k =>
        (k, sortBy (fun x y => strLe (sortField group_by x) (sortField group_by y))
          ((keyed.filter (fun p => decide (p.1 = k))).map Prod.snd))) :=
      (perm_sortBy _ _).mem_iff.mp hpr
    obtain ⟨k, -, rfl⟩ := List.mem_map.mp hmem
    exact sorted_sortBy
      (fun x y : Bench => strLe (sortField group_by x) (sortField group_by y))
      (fun x y => strLe_total (sortField group_by x) (sortField group_by y))
      (fun x y z => strLe_trans (sortField group_by x) (sortField group_by y)
        (sortField group_by z)) _

/-- A concrete benchmark row used to exercise the grouping hook. -/
def demoBench1 : Bench := ⟨some "g2", "b", "mod.py::b", none, []⟩

/-- A second concrete benchmark row used to exercise the grouping hook. -/
def demoBench2 : Bench := ⟨some "g1", "a", "mod.py::a", none, []⟩

/-- C9 (amended): for every supported grouping label whose `param:NAME`
lookups succeed on every benchmark, `pytest_benchmark_group_stats` returns
a partition of the input into (key, group) pairs sorted by key with a
falsy key compared as the empty string, each group sorted by `fullname`
when `full` occurs in the label and by `name` otherwise; for an
unsupported label it raises `NotImplementedError` exactly when the
benchmark list is non-empty. -/
theorem group_stats_partition_sorted (benchmarks : List Bench) (group_by : String) :
    (supportedGroupBy group_by = true →
      (∀ b ∈ benchmarks, group_by.toList.take 6 = "param:".toList →
        (pyLookup (group_by.drop 6) b.params).isSome = true) →
      pytest_benchmark_group_stats benchmarks group_by
          = Except.ok (groupStatsOk benchmarks group_by) ∧
        ((groupStatsOk benchmarks group_by).map Prod.snd).flatten.Perm benchmarks ∧
        (groupStatsOk benchmarks group_by).Pairwise
          (fun p q => strLe (keyStr p.1) (keyStr q.1) = true) ∧
        ∀ pr ∈ groupStatsOk benchmarks group_by,
          pr.2.Pairwise
            (fun x y => strLe (sortField group_by x) (sortField group_by y) = true)) ∧
    (supportedGroupBy group_by = false → benchmarks ≠ [] →
      pytest_benchmark_group_stats benchmarks group_by
        = Except.error (GroupError.notImplemented group_by)) := by
  constructor
  · intro hsup hparam
    obtain ⟨keyed, hkeyed, hsnd⟩ := mapM_benchKey_ok group_by benchmarks
      (fun b hb => benchKey_ok_of_supported group_by b hsup (hparam b hb))
    have hres : pytest_benchmark_group_stats benchmarks group_by
        = Except.ok (groupAndSort group_by keyed) := by
      unfold pytest_benchmark_group_stats
      rw [hkeyed]
      rfl
    have hok : groupStatsOk benchmarks group_by = groupAndSort group_by keyed := by
      unfold groupStatsOk
      rw [hres]
      rfl
    obtain ⟨hp1, hp2, hp3⟩ := groupAndSort_spec group_by keyed
    rw [hok]
    rw [hsnd] at hp1
    exact ⟨hres, hp1, hp2, hp3⟩
  · intro hsup hne
    cases benchmarks with
    | nil => exact absurd rfl hne
    | cons b bs =>
      unfold pytest_benchmark_group_stats
      rw [List.mapM_cons, benchKey_notImplemented group_by b hsup]
      rfl

/-- C9 counterexample to the claim as stated: with an empty benchmark list
the per-benchmark dispatch never runs, so the unsupported label `bogus`
yields an empty grouping instead of raising `NotImplementedError`. -/
theorem group_stats_empty_unsupported_no_raise :
    pytest_benchmark_group_stats [] "bogus" = Except.ok [] := by
  have hg : groupAndSort "bogus" [] = [] := by
    unfold groupAndSort
    rw [List.map_nil, firstKeys]
    rfl
  show (List.mapM
      (fun bench => (benchKey "bogus" bench).map (fun k => (k, bench))) []).map
        (groupAndSort "bogus") = Except.ok []
  rw [List.mapM_nil]
  show Except.ok (groupAndSort "bogus" []) = Except.ok []
  rw [hg]

/-- Witness for C9 on concrete rows: grouping by `group` succeeds, and
grouping a non-empty list by the unsupported label `bogus` raises
`NotImplementedError`. -/
theorem group_stats_partition_sorted_witness :
    supportedGroupBy "group" = true ∧
    pytest_benchmark_group_stats [demoBench1, demoBench2] "group"
      = Except.ok (groupStatsOk [demoBench1, demoBench2] "group") ∧
    pytest_benchmark_group_stats [demoBench1] "bogus"
      = Except.error (GroupError.notImplemented "bogus") :=
  ⟨by decide,
    ((group_stats_partition_sorted [demoBench1, demoBench2] "group").1
      (by decide) (by decide)).1,
    (group_stats_partition_sorted [demoBench1] "bogus").2 (by decide) (by decide)⟩

/-- C4: a benchmark flagged as errored produces no output:
`pytest_benchmark_generate_json` reports exactly the serializations of
those benchmarks whose `has_error` flag is false, in order, and passes the
remaining report fields through unchanged. -/
theorem generate_json_filters_errored {μ κ δ : Type} (machine_info : μ) (commit_info : κ)
    (benchmarks : List (BenchRecord δ)) (include_data : Bool)
    (as_dict : BenchRecord δ → Bool → δ) (now ver : String) :
    (pytest_benchmark_generate_json machine_info commit_info benchmarks include_data
        as_dict now ver).benchmarks
      = (benchmarks.filter (fun b => b.has_error = false)).map
          (fun b => as_dict b include_data) ∧
    (pytest_benchmark_generate_json machine_info commit_info benchmarks include_data
        as_dict now ver).machine_info = machine_info ∧
    (pytest_benchmark_generate_json machine_info commit_info benchmarks include_data
        as_dict now ver).commit_info = commit_info := by
  refine ⟨?_, rfl, rfl⟩
  have h := foldl_append_not_has_error (fun b => as_dict b include_data) benchmarks []
  simpa [pytest_benchmark_generate_json] using h

/-- C5: contrary to the claim (and the spec's intent), the shipped hook
never re-raises a `PerformanceRegression` unchanged: because the module
leaves the matcher name `PerformanceRegression` undefined, any exception
from `display` — the regression signal included — surfaces as a
`NameError` chaining the original, with nothing written to the log; the
`except Exception` logging branch is unreachable. -/
theorem terminal_summary_name_error (m tb : String) (log : List String) :
    pytest_terminal_summary (Except.error (PyExc.performanceRegression m)) log
      = (Except.error (PyExc.nameError nameErrorMessage
          (PyExc.performanceRegression m)), log) ∧
    pytest_terminal_summary (Except.error (PyExc.otherException tb)) log
      = (Except.error (PyExc.nameError nameErrorMessage
          (PyExc.otherException tb)), log) ∧
    pytest_terminal_summary (Except.ok ()) log = (Except.ok (), log) :=
  ⟨rfl, rfl, rfl⟩

/-- C6: `pytest_benchmark_compare_machine_info` warns exactly when the
saved machine info differs from the current one (as Python dicts), and in
every case returns normally with at most that one warning and no other
effect. -/
theorem compare_machine_info_warns_iff (machine_info compared : List (String × String)) :
    (pytest_benchmark_compare_machine_info machine_info compared ≠ []
        ↔ pyDictEq compared machine_info = false) ∧
    (pytest_benchmark_compare_machine_info machine_info compared).length ≤ 1 := by
  by_cases h : pyDictEq compared machine_info <;>
    simp [pytest_benchmark_compare_machine_info, h]

/-- C7: `pytest_runtest_setup` accepts a `benchmark` marker exactly when
it has no positional arguments and every keyword argument lies in the
closed set {max_time, min_rounds, min_time, timer, group, disable_gc,
warmup, warmup_iterations, calibration_precision}; in every other case it
raises `ValueError`. -/
theorem runtest_setup_rejects_invalid {π : Type} (m : BenchmarkMarker π) :
    pytest_runtest_setup (some m) = Except.ok ()
      ↔ m.args = [] ∧ ∀ k ∈ m.kwargs, k ∈ allowed_marker_kwargs := by
  cases hargs : m.args with
  | nil => simp [pytest_runtest_setup, hargs, check_marker_kwargs_ok_iff]
  | cons a rest => simp [pytest_runtest_setup, hargs]

/-- C10: `pytest_runtest_call` skips a benchmark-carrying item exactly
when the session's skip flag is set and a non-benchmark item exactly when
the session's only flag is set; in every other case the item runs. -/
theorem runtest_call_skip_iff (bs : BenchmarkSessionFlags) (has_fixture : Bool) :
    ((pytest_runtest_call bs has_fixture).isSkip = true
        ↔ (has_fixture = true ∧ bs.skip = true) ∨ (has_fixture = false ∧ bs.only = true)) ∧
    (pytest_runtest_call bs has_fixture = RuntestAction.runTest
        ↔ ¬((has_fixture = true ∧ bs.skip = true) ∨ (has_fixture = false ∧ bs.only = true))) := by
  obtain ⟨sk, onl⟩ := bs
  cases has_fixture <;> cases sk <;> cases onl <;>
    simp [pytest_runtest_call, RuntestAction.isSkip]
